import Mathlib

/-!
Verification of the NeonPro real-time assistant core: the AG-UI session
protocol (`agui_protocol.py`, `main.py`), the WebSocket connection manager
(`websocket_manager.py`), the hybrid retrieval pipeline (`vector_store.py`),
the rule-based intent classifier (`agent_service.py`), and the role-based
contact masking (`healthcare_data_service.py`).

Python strings are embedded as `List Char`; Python floats as `ℚ`; Python
dicts used as insertion-ordered maps as association lists with
insertion-ordered update (`dictSet`).  Byte strings are `List Nat` with
each byte `< 256`.
-/

set_option maxHeartbeats 1000000

/-- Simple lowercase map covering ASCII and the Latin-1 uppercase letters
(the only uppercase characters relevant to the Portuguese keyword lists),
mirroring the effect of Python `str.lower()` on such text. -/
def pyLowerChar (c : Char) : Char :=
  if 65 ≤ c.toNat ∧ c.toNat ≤ 90 then Char.ofNat (c.toNat + 32)
  else if 192 ≤ c.toNat ∧ c.toNat ≤ 222 ∧ c.toNat ≠ 215 then Char.ofNat (c.toNat + 32)
  else c

/-- Python `str.lower()` on the embedded string. -/
def pyLower (s : List Char) : List Char := s.map pyLowerChar

/-- Python `needle in hay` on strings: substring containment. -/
def hasSub (needle : List Char) : List Char → Bool
  | [] => needle.isEmpty
  | c :: rest => needle.isPrefixOf (c :: rest) || hasSub needle rest

/-- Helper for `pySplitWs`: accumulates the current word (reversed). -/
def splitWsAux (cur : List Char) : List Char → List (List Char)
  | [] => if cur.isEmpty then [] else [cur.reverse]
  | c :: rest =>
      if c.isWhitespace then
        if cur.isEmpty then splitWsAux [] rest
        else cur.reverse :: splitWsAux [] rest
      else splitWsAux (c :: cur) rest

/-- Python `str.split()` with no argument: split on whitespace runs,
dropping empty pieces. -/
def pySplitWs (s : List Char) : List (List Char) := splitWsAux [] s

/-- Python `str.strip()`: drop leading and trailing whitespace. -/
def pyStrip (s : List Char) : List Char :=
  ((s.dropWhile Char.isWhitespace).reverse.dropWhile Char.isWhitespace).reverse

/-- Python dict assignment `d[k] = v` on an insertion-ordered association
list: an existing key is updated in place (keeping its position), a new key
is appended at the end. -/
def dictSet {α β : Type} [DecidableEq α] (k : α) (v : β) : List (α × β) → List (α × β)
  | [] => [(k, v)]
  | (k', v') :: rest => if k' = k then (k, v) :: rest else (k', v') :: dictSet k v rest

/-- Python dict lookup `d.get(k)`. -/
def dictGet {α β : Type} [DecidableEq α] (k : α) : List (α × β) → Option β
  | [] => none
  | (k', v') :: rest => if k' = k then some v' else dictGet k rest

/-- Python `del d[k]` on an association-list dict (guarded by a
membership test at every use site in the source). -/
def dictRemove {α β : Type} [DecidableEq α] (k : α) (l : List (α × β)) : List (α × β) :=
  l.filter (fun q => decide (q.1 ≠ k))

/-- Insert an element into a list already sorted in descending key order,
placing it after every element of at least its key. -/
def insDesc {α : Type} (key : α → ℚ) (x : α) : List α → List α
  | [] => [x]
  | y :: ys => if key x ≤ key y then y :: insDesc key x ys else x :: y :: ys

/-- Insertion sort in descending key order, modelling Python
`sorted(..., key=..., reverse=True)` up to the order of equal keys
(which none of the verified properties depend on). -/
def sortByDesc {α : Type} (key : α → ℚ) : List α → List α
  | [] => []
  | x :: xs => insDesc key x (sortByDesc key xs)

namespace AgentService

/-- `QueryIntent` enum from `agent_service.py`. -/
inductive QueryIntent : Type
  | CLIENT_SEARCH
  | APPOINTMENT_QUERY
  | FINANCIAL_QUERY
  | SCHEDULE_MANAGEMENT
  | REPORT_GENERATION
  | UNKNOWN
deriving DecidableEq

/-- Keyword list checked for `CLIENT_SEARCH` in `_detect_intent`. -/
def clientKeywords : List (List Char) :=
  ["buscar".data, "procurar".data, "achar".data, "paciente".data, "cliente".data]

/-- Keyword list checked for `APPOINTMENT_QUERY` in `_detect_intent`. -/
def appointmentKeywords : List (List Char) :=
  ["consulta".data, "agendamento".data, "marcação".data, "compromisso".data]

/-- Keyword list checked for `FINANCIAL_QUERY` in `_detect_intent`. -/
def financialKeywords : List (List Char) :=
  ["financeiro".data, "pagamento".data, "fatura".data, "valor".data, "dinheiro".data]

/-- Keyword list checked for `SCHEDULE_MANAGEMENT` in `_detect_intent`. -/
def scheduleKeywords : List (List Char) :=
  ["agenda".data, "marcar".data, "cancelar".data, "remarcar".data]

/-- Keyword list checked for `REPORT_GENERATION` in `_detect_intent`
(the source list repeats `relatório`). -/
def reportKeywords : List (List Char) :=
  ["relatório".data, "relatorio".data, "resumo".data, "relatório".data]

/-- `any(word in text_lower for word in words)`. -/
def anyKeyword (words : List (List Char)) (textLower : List Char) : Bool :=
  words.any (fun w => hasSub w textLower)

/-- `AgentService._detect_intent`: lower-case the text, then test the five
keyword lists in the fixed order client > appointment > financial >
schedule > report, returning `UNKNOWN` when none matches. -/
def detect_intent (text : List Char) : QueryIntent :=
  let t := pyLower text
  if anyKeyword clientKeywords t then QueryIntent.CLIENT_SEARCH
  else if anyKeyword appointmentKeywords t then QueryIntent.APPOINTMENT_QUERY
  else if anyKeyword financialKeywords t then QueryIntent.FINANCIAL_QUERY
  else if anyKeyword scheduleKeywords t then QueryIntent.SCHEDULE_MANAGEMENT
  else if anyKeyword reportKeywords t then QueryIntent.REPORT_GENERATION
  else QueryIntent.UNKNOWN

/-- The curated term list of each intent (`UNKNOWN` has none). -/
def intentKeywords : QueryIntent → List (List Char)
  | QueryIntent.CLIENT_SEARCH => clientKeywords
  | QueryIntent.APPOINTMENT_QUERY => appointmentKeywords
  | QueryIntent.FINANCIAL_QUERY => financialKeywords
  | QueryIntent.SCHEDULE_MANAGEMENT => scheduleKeywords
  | QueryIntent.REPORT_GENERATION => reportKeywords
  | QueryIntent.UNKNOWN => []

/-- A text matches an intent when its lower-cased form contains a keyword
of that intent's term list. -/
def matchesIntent (i : QueryIntent) (text : List Char) : Bool :=
  anyKeyword (intentKeywords i) (pyLower text)

/-- Position of an intent in the fixed priority order
patient > appointment > financial > schedule > report > general. -/
def intentRank : QueryIntent → Nat
  | QueryIntent.CLIENT_SEARCH => 0
  | QueryIntent.APPOINTMENT_QUERY => 1
  | QueryIntent.FINANCIAL_QUERY => 2
  | QueryIntent.SCHEDULE_MANAGEMENT => 3
  | QueryIntent.REPORT_GENERATION => 4
  | QueryIntent.UNKNOWN => 5

end AgentService

namespace VectorStore

/-- One row returned by the external `db_manager.search_similar`
collaborator, as consumed by `vector_store.py`: the raw `similarity`
reported by the index (`result.get("similarity", 0)`), the document
`content`, the string values of its `metadata` dict (in iteration order),
and the `similarity_score` / `keyword_score` fields the pipeline writes
into the row dict (absent fields read as 0 via `.get(..., 0)`). -/
structure SearchRow : Type where
  rid : Nat
  content : List Char
  metaVals : List (List Char)
  similarity : ℚ
  similarity_score : ℚ
  keyword_score : ℚ
deriving DecidableEq

/-- `VectorStoreManager.similarity_search`, given the rows returned by the
vector index for the query embedding: keep, in order, the rows whose
`similarity` is at least `score_threshold` (default 0.7), writing
`similarity_score := similarity` into each kept row. -/
def similarity_search (results : List SearchRow) (score_threshold : ℚ) : List SearchRow :=
  results.filterMap (fun r =>
    if score_threshold ≤ r.similarity then some { r with similarity_score := r.similarity }
    else none)

/-- Per-term metadata contribution in `_keyword_search`: 0.5 for every
metadata string value containing the term (after lower-casing). -/
def metaScore (term : List Char) (metaVals : List (List Char)) : ℚ :=
  metaVals.foldl (fun a v => a + if hasSub term (pyLower v) then (1/2 : ℚ) else 0) 0

/-- `match_score` accumulation in `_keyword_search`: +1 per query term
contained in the lower-cased content, +0.5 per term per matching metadata
string value. -/
def matchScore (terms : List (List Char)) (contentLower : List Char)
    (metaVals : List (List Char)) : ℚ :=
  terms.foldl (fun acc term =>
    acc + (if hasSub term contentLower then (1 : ℚ) else 0) + metaScore term metaVals) 0

/-- `VectorStoreManager._keyword_search`, given the rows the index returned
for the dummy embedding: keep rows with positive `match_score`, writing
`keyword_score := match_score / len(query_terms)`, then sort descending by
`keyword_score` and truncate to `limit`.  No similarity threshold is
applied on this path. -/
def keyword_search (query : List Char) (allResults : List SearchRow) (limit : Nat) :
    List SearchRow :=
  let terms := pySplitWs (pyLower query)
  let matched := allResults.filterMap (fun r =>
    let ms := matchScore terms (pyLower r.content) r.metaVals
    if 0 < ms then some { r with keyword_score := ms / (terms.length : ℚ) } else none)
  (sortByDesc (fun r => r.keyword_score) matched).take limit

/-- One entry of the `combined_scores` dict built by
`VectorStoreManager._combine_results`, and also one element of its
returned list (a copy of the row dict carrying the three score fields). -/
structure RankedRow : Type where
  result : SearchRow
  semantic_score : ℚ
  keyword_score : ℚ
  combined_score : ℚ
deriving DecidableEq

/-- First loop of `_combine_results`: enter every semantic result into the
`combined_scores` dict keyed by document id, with
`combined_score = similarity_score * semantic_weight`. -/
def addSemantic (semantic_weight : ℚ) (acc : List (Nat × RankedRow)) (r : SearchRow) :
    List (Nat × RankedRow) :=
  dictSet r.rid ⟨r, r.similarity_score, 0, r.similarity_score * semantic_weight⟩ acc

/-- Second loop of `_combine_results`: for every keyword result, either
update the existing dict entry (set its `keyword_score`, add
`keyword_score * keyword_weight` into `combined_score`) or insert a
keyword-only entry. -/
def addKeyword (keyword_weight : ℚ) (acc : List (Nat × RankedRow)) (r : SearchRow) :
    List (Nat × RankedRow) :=
  match dictGet r.rid acc with
  | some e =>
      dictSet r.rid
        { e with keyword_score := r.keyword_score,
                 combined_score := e.combined_score + r.keyword_score * keyword_weight } acc
  | none => dictSet r.rid ⟨r, 0, r.keyword_score, r.keyword_score * keyword_weight⟩ acc

/-- `VectorStoreManager._combine_results`: build the `combined_scores`
dict from the semantic then the keyword results, sort its values
descending by `combined_score`, and return the top `limit` entries. -/
def combine_results (semantic_results keyword_results : List SearchRow)
    (semantic_weight keyword_weight : ℚ) (limit : Nat) : List RankedRow :=
  let scores1 := semantic_results.foldl (addSemantic semantic_weight) []
  let scores2 := keyword_results.foldl (addKeyword keyword_weight) scores1
  (sortByDesc (fun x => x.combined_score) (scores2.map Prod.snd)).take limit

/-- `VectorStoreManager.hybrid_search`: semantic search (with the default
score threshold 0.7) over the rows the index returned for the query
embedding, keyword search (truncated at `limit * 2`) over the rows
returned for the dummy embedding, then merge via `_combine_results`. -/
def hybrid_search (query : List Char) (semanticRows keywordRows : List SearchRow)
    (limit : Nat) (semantic_weight keyword_weight : ℚ) : List RankedRow :=
  combine_results (similarity_search semanticRows (7/10))
    (keyword_search query keywordRows (limit * 2))
    semantic_weight keyword_weight limit

end VectorStore

namespace AGUI

/-- `AGUIEventType` enum from `agui_protocol.py`. -/
inductive AGUIEventType : Type
  | connection
  | message
  | response
  | error
  | heartbeat
  | action
  | session_update
  | feedback
  | stream_start
  | stream_chunk
  | stream_end
deriving DecidableEq

/-- `AGUIEventType(value)`: `some` on one of the eleven recognized type
strings, `none` where the Python constructor raises `ValueError`. -/
def eventTypeOfString (s : List Char) : Option AGUIEventType :=
  if s = "connection".data then some AGUIEventType.connection
  else if s = "message".data then some AGUIEventType.message
  else if s = "response".data then some AGUIEventType.response
  else if s = "error".data then some AGUIEventType.error
  else if s = "heartbeat".data then some AGUIEventType.heartbeat
  else if s = "action".data then some AGUIEventType.action
  else if s = "session_update".data then some AGUIEventType.session_update
  else if s = "feedback".data then some AGUIEventType.feedback
  else if s = "stream_start".data then some AGUIEventType.stream_start
  else if s = "stream_chunk".data then some AGUIEventType.stream_chunk
  else if s = "stream_end".data then some AGUIEventType.stream_end
  else none

/-- `AGUIConnectionState` enum from `agui_protocol.py`. -/
inductive ConnState : Type
  | CONNECTING
  | CONNECTED
  | AUTHENTICATED
  | DISCONNECTED
  | ERROR
deriving DecidableEq

/-- The `data` dict of an `AGUIEvent`, as a tagged variant per
construction site (connection-established info, error code and message,
heartbeat payload, or an opaque message/response payload string). -/
inductive EventData : Type
  | connInfo (status protocol_version encryption tls_version : List Char)
  | errInfo (code msg : List Char)
  | hbInfo (timestamp : Nat) (message_count : Nat)
  | payload (raw : List Char)
deriving DecidableEq

/-- `AGUIEvent` dataclass (the `id` and `timestamp` fields carry no
verified property and are dropped). -/
structure AGUIEvent : Type where
  type : AGUIEventType
  session_id : Option (List Char)
  user_id : Option (List Char)
  data : EventData
deriving DecidableEq

/-- One frame written to the socket by `AGUISession.send_event`: the event
plus the `encrypted` marker set for `message`/`response` events. -/
structure SentFrame : Type where
  event : AGUIEvent
  encrypted : Bool
deriving DecidableEq

/-- `AGUISession` state: id, user, connection state, running message
count, and last-activity tick (an abstract clock). -/
structure AGUISession : Type where
  session_id : List Char
  user_id : List Char
  state : ConnState
  message_count : Nat
  last_activity : Nat
deriving DecidableEq

/-- `AGUISession.send_event`: emit the frame (encrypting the data of
`message`/`response` events), then set `last_activity` and increment
`message_count`. -/
def send_event (s : AGUISession) (e : AGUIEvent) (now : Nat) : AGUISession × SentFrame :=
  let enc := e.type = AGUIEventType.message ∨ e.type = AGUIEventType.response
  ({ s with last_activity := now, message_count := s.message_count + 1 },
   ⟨e, decide enc⟩)

/-- `AGUISession.send_message`: wrap a message in a `response` event and
send it. -/
def send_message (s : AGUISession) (content : List Char) (now : Nat) :
    AGUISession × SentFrame :=
  send_event s ⟨AGUIEventType.response, some s.session_id, some s.user_id,
    EventData.payload content⟩ now

/-- `AGUISession.send_error`: wrap an error code and message in an `error`
event and send it. -/
def send_error (s : AGUISession) (code msg : List Char) (now : Nat) :
    AGUISession × SentFrame :=
  send_event s ⟨AGUIEventType.error, some s.session_id, some s.user_id,
    EventData.errInfo code msg⟩ now

/-- `AGUISession.heartbeat`: send a `heartbeat` event whose data carries
the current timestamp and the session's running `message_count`. -/
def heartbeat (s : AGUISession) (t : Nat) : AGUISession × SentFrame :=
  send_event s ⟨AGUIEventType.heartbeat, some s.session_id, some s.user_id,
    EventData.hbInfo t s.message_count⟩ t

/-- `AGUIProtocol._handle_event` with the default handler registry
(`connection`, `heartbeat`, `message`, `feedback`): update
`last_activity`, then dispatch by event type.  Handler exceptions are
caught and logged in the source, so dispatch always returns. -/
def handle_event (s : AGUISession) (e : AGUIEvent) (now : Nat) :
    AGUISession × List SentFrame :=
  let s1 := { s with last_activity := now }
  match e.type with
  | AGUIEventType.connection => ({ s1 with state := ConnState.AUTHENTICATED }, [])
  | AGUIEventType.heartbeat =>
      let (s2, f) := heartbeat s1 now
      (s2, [f])
  | AGUIEventType.message =>
      let (s2, f) := send_message s1 "Message received".data now
      (s2, [f])
  | AGUIEventType.feedback =>
      let (s2, f) := send_message s1 "Feedback received".data now
      (s2, [f])
  | _ => (s1, [])

/-- The operations of `agui_protocol.py` that touch one session object:
sending an arbitrary event, sending a message or an error, emitting a
heartbeat, and handling an inbound event. -/
inductive SessionOp : Type
  | sendEvent (e : AGUIEvent) (now : Nat)
  | sendMessage (content : List Char) (now : Nat)
  | sendError (code msg : List Char) (now : Nat)
  | heartbeatOp (t : Nat)
  | handleEvent (e : AGUIEvent) (now : Nat)

/-- Apply one session-touching operation, returning the updated session
and the frames it emitted. -/
def applyOp (s : AGUISession) : SessionOp → AGUISession × List SentFrame
  | SessionOp.sendEvent e now => let (s', f) := send_event s e now; (s', [f])
  | SessionOp.sendMessage c now => let (s', f) := send_message s c now; (s', [f])
  | SessionOp.sendError code msg now => let (s', f) := send_error s code msg now; (s', [f])
  | SessionOp.heartbeatOp t => let (s', f) := heartbeat s t; (s', [f])
  | SessionOp.handleEvent e now => handle_event s e now

/-- Apply a sequence of session-touching operations. -/
def applyOps (s : AGUISession) : List SessionOp → AGUISession
  | [] => s
  | op :: ops => applyOps (applyOp s op).1 ops

/-- `AGUIProtocol` state: the active-session dict. -/
structure AGUIProtocol : Type where
  sessions : List (List Char × AGUISession)
deriving DecidableEq

/-- `AGUIProtocol.create_session`: build a session in state `CONNECTED`
with `message_count = 0`, send the connection-established event on it,
and enter it into the session dict.  The source performs no validation of
`user_id` here. -/
def create_session (p : AGUIProtocol) (newSid uid : List Char) (now : Nat) :
    AGUIProtocol × AGUISession × SentFrame :=
  let s0 : AGUISession := ⟨newSid, uid, ConnState.CONNECTED, 0, now⟩
  let (s1, f) := send_event s0 ⟨AGUIEventType.connection, some newSid, some uid,
    EventData.connInfo "connected".data "1.0".data "aes-256-cfb".data "1.3".data⟩ now
  (⟨dictSet newSid s1 p.sessions⟩, s1, f)

/-- One iteration's worth of input to the receive loop of
`AGUIProtocol.handle_websocket`: the peer disconnected, the frame failed
`json.loads`, or a parsed frame with optional `type` string, `encrypted`
marker, and raw data payload. -/
inductive Inbound : Type
  | disconnected
  | malformed
  | frame (typeStr : Option (List Char)) (encrypted : Bool) (dataRaw : List Char)

/-- One iteration of the receive loop of `AGUIProtocol.handle_websocket`
for session `s` (present in `p.sessions` under its id), with
`decryptFn` standing for `json.loads(session.encryption.decrypt(.))`
(`none` = that composite raised).  Returns the protocol state, the frames
sent on this connection, and whether the loop continues.  On
`WebSocketDisconnect` the session is removed and the loop ends; a
malformed frame yields an `INVALID_FORMAT` error event; an unrecognized
`type` string yields an `INVALID_EVENT_TYPE` error event; a recognized
frame is dispatched to `_handle_event`, with a failed decryption logged
and the event handled with its original payload. -/
def receiveStep (decryptFn : List Char → Option (List Char)) (p : AGUIProtocol)
    (s : AGUISession) (now : Nat) : Inbound → AGUIProtocol × List SentFrame × Bool
  | Inbound.disconnected => (⟨dictRemove s.session_id p.sessions⟩, [], false)
  | Inbound.malformed =>
      let (s', f) := send_error s "INVALID_FORMAT".data "Invalid JSON format".data now
      (⟨dictSet s.session_id s' p.sessions⟩, [f], true)
  | Inbound.frame typeStr enc dataRaw =>
      match eventTypeOfString (typeStr.getD "message".data) with
      | none =>
          let (s', f) := send_error s "INVALID_EVENT_TYPE".data
            "not a valid AGUIEventType".data now
          (⟨dictSet s.session_id s' p.sessions⟩, [f], true)
      | some ty =>
          let d := if enc && !dataRaw.isEmpty then (decryptFn dataRaw).getD dataRaw
                   else dataRaw
          let e : AGUIEvent := ⟨ty, some s.session_id, some s.user_id, EventData.payload d⟩
          let (s', fs) := handle_event s e now
          (⟨dictSet s.session_id s' p.sessions⟩, fs, true)

/-- A command issued on the raw socket by the endpoint in `main.py`. -/
inductive SockCmd : Type
  | accept
  | sendFrame (f : SentFrame)
  | close (code : Nat) (reason : List Char)
deriving DecidableEq

/-- `NeonProDataAgent.validate_user` from `main.py`:
`bool(user_id and user_id.strip())`. -/
def validate_user (uid : List Char) : Bool :=
  !uid.isEmpty && !(pyStrip uid).isEmpty

/-- The `/ws/agui/{user_id}` endpoint of `main.py`, up to session
creation: accept the socket, validate `user_id`, and either close with
code 4000 (leaving the protocol state untouched) or hand off to
`handle_websocket`, whose first step is `create_session` (the subsequent
receive loop is modelled by `receiveStep`). -/
def websocket_endpoint (p : AGUIProtocol) (uid newSid : List Char) (now : Nat) :
    AGUIProtocol × List SockCmd :=
  if validate_user uid then
    let (p', _s, f) := create_session p newSid uid now
    (p', [SockCmd.accept, SockCmd.sendFrame f])
  else
    (p, [SockCmd.accept, SockCmd.close 4000 "Authentication failed".data])

end AGUI

namespace WSManager

/-- Per-connection metadata kept by `WebSocketManager`
(`ip_address`/`user_agent` carry no verified property). -/
structure Meta : Type where
  connected_at : Nat
  last_activity : Nat
deriving DecidableEq

/-- `WebSocketManager` state: the active-connection dict (client id to
socket handle), the metadata dict, and the `max_connections` bound. -/
structure WSState : Type where
  active : List (List Char × Nat)
  metadata : List (List Char × Meta)
  max_connections : Nat
deriving DecidableEq

/-- A command issued on a raw socket by `WebSocketManager`. -/
inductive WSCmd : Type
  | accept (ws : Nat)
  | close (ws : Nat) (code : Nat) (reason : List Char)
  | sendJson (ws : Nat) (msgType : List Char)
deriving DecidableEq

/-- `WebSocketManager.connect`: when the active-connection count has
reached `max_connections`, close the socket with code 1008 and reason
"Maximum connections reached" without accepting it and without touching
either dict; otherwise accept, enter the connection under the provided or
generated client id, record metadata, and send the welcome message. -/
def connect (st : WSState) (ws : Nat) (cid : Option (List Char)) (genCid : List Char)
    (now : Nat) : WSState × List WSCmd :=
  if st.max_connections ≤ st.active.length then
    (st, [WSCmd.close ws 1008 "Maximum connections reached".data])
  else
    let c := cid.getD genCid
    ({ st with active := dictSet c ws st.active,
               metadata := dictSet c ⟨now, now⟩ st.metadata },
     [WSCmd.accept ws, WSCmd.sendJson ws "connection_established".data])

/-- `WebSocketManager.disconnect`: remove the first client bound to this
socket from both dicts. -/
def disconnect (st : WSState) (ws : Nat) : WSState :=
  match st.active.find? (fun q => q.2 == ws) with
  | none => st
  | some q =>
      { st with active := dictRemove q.1 st.active,
                metadata := dictRemove q.1 st.metadata }

/-- `WebSocketManager.close_all_connections`: clear both dicts. -/
def close_all (st : WSState) : WSState :=
  { st with active := [], metadata := [] }

/-- `WebSocketManager.handle_message`: refresh the sending client's
`last_activity`; the dicts' key sets are unchanged. -/
def handle_message (st : WSState) (ws : Nat) (now : Nat) : WSState :=
  match st.active.find? (fun q => q.2 == ws) with
  | none => st
  | some q =>
      match dictGet q.1 st.metadata with
      | none => st
      | some m =>
          { st with metadata := dictSet q.1 { m with last_activity := now } st.metadata }

/-- The operations of `websocket_manager.py` that touch the connection
dicts (a failed send inside `broadcast`/`send_personal_message` calls
`disconnect`, covered by `disconnectOp`). -/
inductive WSOp : Type
  | connectOp (ws : Nat) (cid : Option (List Char)) (genCid : List Char) (now : Nat)
  | disconnectOp (ws : Nat)
  | closeAllOp
  | handleMessageOp (ws : Nat) (now : Nat)

/-- Apply one manager operation to the state. -/
def applyWSOp (st : WSState) : WSOp → WSState
  | WSOp.connectOp ws cid gen now => (connect st ws cid gen now).1
  | WSOp.disconnectOp ws => disconnect st ws
  | WSOp.closeAllOp => close_all st
  | WSOp.handleMessageOp ws now => handle_message st ws now

end WSManager

namespace HDS

/-- `HealthcareDataService._mask_phone`: phones shorter than 8 characters
(empty included) are returned unchanged; otherwise keep the first two and
last two characters around `***`. -/
def mask_phone (phone : List Char) : List Char :=
  if phone.isEmpty ∨ phone.length < 8 then phone
  else phone.take 2 ++ "***".data ++ phone.drop (phone.length - 2)

/-- The roles given full access to contact fields. -/
def elevatedRoles : List (List Char) := ["admin".data, "doctor".data]

/-- `HealthcareDataService._mask_phone_by_role`. -/
def mask_phone_by_role (phone role : List Char) : List Char :=
  if role ∈ elevatedRoles then phone else mask_phone phone

/-- `HealthcareDataService._mask_email_by_role`: elevated roles get the
raw email; otherwise an email containing `@` keeps the first two
characters of its local part followed by `***@domain` (split at the first
`@`); a string without `@` is returned unchanged. -/
def mask_email_by_role (email role : List Char) : List Char :=
  if role ∈ elevatedRoles then email
  else if email.contains '@' then
    (email.takeWhile (fun ch => ch ≠ '@')).take 2 ++ "***@".data ++
      ((email.dropWhile (fun ch => ch ≠ '@')).drop 1)
  else email

end HDS

namespace Crypto

/-- The fixed initialization vector `b'initializationve'` of
`AGUIProtocolEncryption.encrypt`/`decrypt`, as bytes. -/
def ivBytes : List Nat := "initializationve".data.map Char.toNat

/-- Full-block AES-CFB encryption keystream recursion as performed by the
`cryptography` library for `modes.CFB`: each 16-byte plaintext block is
XORed with the block-cipher encryption of the previous ciphertext block
(the IV for the first), a trailing short block using a keystream prefix.
The block-cipher forward function `E` (AES with the session key) is an
external-library collaborator and is a parameter.  `fuel` makes the
recursion structural; `fuel ≥ length of the input` suffices. -/
def cfbEncF : Nat → (List Nat → List Nat) → List Nat → List Nat → List Nat
  | 0, _, _, _ => []
  | fuel + 1, E, reg, p =>
    if p.isEmpty then [] else
      let c := List.zipWith Nat.xor (p.take 16) (E reg)
      c ++ cfbEncF fuel E c (p.drop 16)

/-- Full-block AES-CFB decryption: XOR each 16-byte ciphertext block with
the block-cipher encryption of the previous ciphertext block (the IV for
the first). -/
def cfbDecF : Nat → (List Nat → List Nat) → List Nat → List Nat → List Nat
  | 0, _, _, _ => []
  | fuel + 1, E, reg, c =>
    if c.isEmpty then [] else
      let cb := c.take 16
      List.zipWith Nat.xor cb (E reg) ++ cfbDecF fuel E cb (c.drop 16)

/-- The base64 alphabet. -/
def b64Alphabet : List Char :=
  "ABCDEFGHIJKLMNOPQRSTUVWXYZabcdefghijklmnopqrstuvwxyz0123456789+/".data

/-- Base64 digit for a 6-bit value. -/
def b64Char (n : Nat) : Char := b64Alphabet.getD n '='

/-- Value of a base64 digit. -/
def b64Val (c : Char) : Nat := b64Alphabet.indexOf c

/-- `base64.b64encode` on a byte list. -/
def b64Encode : List Nat → List Char
  | [] => []
  | [a] => [b64Char (a / 4), b64Char (a % 4 * 16), '=', '=']
  | [a, b] => [b64Char (a / 4), b64Char (a % 4 * 16 + b / 16), b64Char (b % 16 * 4), '=']
  | a :: b :: c :: rest =>
      b64Char (a / 4) :: b64Char (a % 4 * 16 + b / 16) :: b64Char (b % 16 * 4 + c / 64) ::
        b64Char (c % 64) :: b64Encode rest

/-- `base64.b64decode` on well-formed base64 text. -/
def b64Decode : List Char → List Nat
  | c1 :: c2 :: c3 :: c4 :: rest =>
      if c3 = '=' then [b64Val c1 * 4 + b64Val c2 / 16]
      else if c4 = '=' then
        [b64Val c1 * 4 + b64Val c2 / 16, b64Val c2 % 16 * 16 + b64Val c3 / 4]
      else
        (b64Val c1 * 4 + b64Val c2 / 16) :: (b64Val c2 % 16 * 16 + b64Val c3 / 4) ::
          (b64Val c3 % 4 * 64 + b64Val c4) :: b64Decode rest
  | _ => []

/-- `AGUIProtocolEncryption.encrypt` for one instance (fixed key): AES-CFB
with the fixed IV over the UTF-8 bytes of the payload, then base64.  `E`
is the AES block-encryption function for the instance's key. -/
def aguiEncrypt (E : List Nat → List Nat) (data : List Nat) : List Char :=
  b64Encode (cfbEncF data.length E ivBytes data)

/-- `AGUIProtocolEncryption.decrypt` for the same instance: base64-decode,
then AES-CFB decrypt with the same fixed IV and key. -/
def aguiDecrypt (E : List Nat → List Nat) (s : List Char) : List Nat :=
  let bs := b64Decode s
  cfbDecF bs.length E ivBytes bs

/-- A well-formed block cipher for CFB: 16-byte output blocks of bytes. -/
def GoodBlockCipher (E : List Nat → List Nat) : Prop :=
  ∀ x, (E x).length = 16 ∧ ∀ b ∈ E x, b < 256

end Crypto

/-- The error code of an emitted frame, when the frame is an error event. -/
def frameErrCode (f : AGUI.SentFrame) : Option (List Char) :=
  match f.event.data with
  | AGUI.EventData.errInfo code _ => some code
  | _ => none

/-- A block cipher fixture for witnesses: constant 16-byte keystream. -/
def fxCipher : List Nat → List Nat := fun _ => (List.range 16).map (fun i => i * 7 + 3)

/-- Semantic-search fixture: document 1 with similarity score 1.0. -/
def fxSemA : VectorStore.SearchRow := ⟨1, "alpha".data, [], 1, 1, 0⟩

/-- Semantic-search fixture: document 2 with similarity score 0.6. -/
def fxSemB : VectorStore.SearchRow := ⟨2, "beta".data, [], (3/5 : ℚ), (3/5 : ℚ), 0⟩

/-- Keyword-search fixture: document 2 with keyword score 1.0. -/
def fxKwB : VectorStore.SearchRow := ⟨2, "beta".data, [], 0, 0, 1⟩

/-- Keyword-search fixture with duplicated id in a keyword result list. -/
def fxDup : VectorStore.SearchRow := ⟨1, [], [], 0, 0, (1/2 : ℚ)⟩

/-- A document whose cosine similarity 0.5 is below the 0.7 threshold but
whose content matches the query "promo". -/
def fxPromo : VectorStore.SearchRow := ⟨5, "promo today".data, [], (1/2 : ℚ), 0, 0⟩

/-- A document whose similarity 1.0 passes the 0.7 threshold (its
`similarity_score` field already equals its similarity). -/
def fxSimOk : VectorStore.SearchRow := ⟨7, "x".data, [], 1, 1, 0⟩

/-- Session fixture with a running message count of 3. -/
def fxSession : AGUI.AGUISession :=
  ⟨"sid1".data, "user1".data, AGUI.ConnState.CONNECTED, 3, 0⟩

/-- Connection-manager fixture: one active connection, capacity 1. -/
def fxWSFull : WSManager.WSState := ⟨[("c1".data, 7)], [("c1".data, ⟨0, 0⟩)], 1⟩

/-! ## General lemmas about the dict and sorting helpers -/

theorem mem_dictSet {α β : Type} [DecidableEq α] (k : α) (v : β) :
    ∀ (l : List (α × β)), ∀ q ∈ dictSet k v l, q = (k, v) ∨ q ∈ l := by
  intro l
  induction l with
  | nil => intro q hq; simpa [dictSet] using hq
  | cons p rest ih =>
      obtain ⟨k', v'⟩ := p
      intro q hq
      by_cases h : k' = k
      · simp [dictSet, h] at hq
        rcases hq with h1 | h2
        · left; simp [h1]
        · right; simp [h2]
      · simp [dictSet, h] at hq
        rcases hq with h1 | h2
        · right; simp [h1]
        · rcases ih q h2 with h3 | h4
          · left; exact h3
          · right; simp [h4]

theorem dictGet_mem {α β : Type} [DecidableEq α] {k : α} {v : β} :
    ∀ {l : List (α × β)}, dictGet k l = some v → (k, v) ∈ l := by
  intro l
  induction l with
  | nil => intro h; simp [dictGet] at h
  | cons p rest ih =>
      obtain ⟨k', v'⟩ := p
      intro h
      by_cases hk : k' = k
      · simp [dictGet, hk] at h
        subst hk; subst h; exact List.mem_cons_self _ _
      · simp [dictGet, hk] at h
        exact List.mem_cons_of_mem _ (ih h)

theorem dictGet_dictSet_self {α β : Type} [DecidableEq α] (k : α) (v : β) :
    ∀ (l : List (α × β)), dictGet k (dictSet k v l) = some v := by
  intro l
  induction l with
  | nil => simp [dictGet, dictSet]
  | cons p rest ih =>
      obtain ⟨k', v'⟩ := p
      by_cases h : k' = k
      · simp [dictGet, dictSet, h]
      · simp [dictGet, dictSet, h, ih]

theorem dictGet_dictSet_ne {α β : Type} [DecidableEq α] {k' k : α} (v : β)
    (h : k' ≠ k) : ∀ (l : List (α × β)), dictGet k' (dictSet k v l) = dictGet k' l := by
  intro l
  induction l with
  | nil => simp [dictGet, dictSet, Ne.symm h]
  | cons p rest ih =>
      obtain ⟨ka, va⟩ := p
      by_cases hk : ka = k
      · subst hk
        simp [dictGet, dictSet, Ne.symm h]
      · simp [dictGet, dictSet, hk, ih]

theorem length_dictSet_le {α β : Type} [DecidableEq α] (k : α) (v : β) :
    ∀ (l : List (α × β)), (dictSet k v l).length ≤ l.length + 1 := by
  intro l
  induction l with
  | nil => simp [dictSet]
  | cons p rest ih =>
      obtain ⟨k', v'⟩ := p
      by_cases h : k' = k
      · simp [dictSet, h]
      · simp [dictSet, h]
        exact ih

theorem mem_insDesc {α : Type} (key : α → ℚ) (x : α) :
    ∀ (l : List α), ∀ y ∈ insDesc key x l, y = x ∨ y ∈ l := by
  intro l
  induction l with
  | nil => intro y hy; simpa [insDesc] using hy
  | cons z zs ih =>
      intro y hy
      by_cases h : key x ≤ key z
      · simp [insDesc, h] at hy
        rcases hy with h1 | h2
        · right; simp [h1]
        · rcases ih y h2 with h3 | h4
          · left; exact h3
          · right; simp [h4]
      · simp [insDesc, h] at hy
        rcases hy with h1 | h2 | h3
        · left; exact h1
        · right; simp [h2]
        · right; simp [h3]

theorem sorted_insDesc {α : Type} (key : α → ℚ) (x : α) :
    ∀ (l : List α), l.Pairwise (fun a b => key b ≤ key a) →
      (insDesc key x l).Pairwise (fun a b => key b ≤ key a) := by
  intro l
  induction l with
  | nil => intro _; simp [insDesc]
  | cons z zs ih =>
      intro hp
      rcases List.pairwise_cons.mp hp with ⟨hz, hzs⟩
      by_cases h : key x ≤ key z
      · have hrw : insDesc key x (z :: zs) = z :: insDesc key x zs := by
          simp [insDesc, h]
        rw [hrw]
        refine List.pairwise_cons.mpr ⟨?_, ih hzs⟩
        intro y hy
        rcases mem_insDesc key x zs y hy with h1 | h2
        · subst h1; exact h
        · exact hz y h2
      · have hrw : insDesc key x (z :: zs) = x :: z :: zs := by
          simp [insDesc, h]
        rw [hrw]
        refine List.pairwise_cons.mpr ⟨?_, hp⟩
        intro y hy
        rcases List.mem_cons.mp hy with h1 | h2
        · subst h1; exact le_of_lt (lt_of_not_le h)
        · exact le_trans (hz y h2) (le_of_lt (lt_of_not_le h))

theorem sorted_sortByDesc {α : Type} (key : α → ℚ) :
    ∀ (l : List α), (sortByDesc key l).Pairwise (fun a b => key b ≤ key a) := by
  intro l
  induction l with
  | nil => simp [sortByDesc]
  | cons x xs ih => exact sorted_insDesc key x _ ih

theorem mem_sortByDesc {α : Type} (key : α → ℚ) :
    ∀ (l : List α), ∀ y ∈ sortByDesc key l, y ∈ l := by
  intro l
  induction l with
  | nil => intro y hy; simp [sortByDesc] at hy
  | cons x xs ih =>
      intro y hy
      rcases mem_insDesc key x _ y hy with h1 | h2
      · simp [h1]
      · exact List.mem_cons_of_mem _ (ih y h2)

theorem insDesc_map {α β : Type} (key : α → ℚ) (key' : β → ℚ) (f : α → β)
    (hkey : ∀ x, key' (f x) = key x) (x : α) :
    ∀ (l : List α), insDesc key' (f x) (l.map f) = (insDesc key x l).map f := by
  intro l
  induction l with
  | nil => simp [insDesc]
  | cons z zs ih =>
      by_cases h : key x ≤ key z
      · simp [insDesc, hkey, h, ih]
      · simp [insDesc, hkey, h]

theorem sortByDesc_map {α β : Type} (key : α → ℚ) (key' : β → ℚ) (f : α → β)
    (hkey : ∀ x, key' (f x) = key x) :
    ∀ (l : List α), sortByDesc key' (l.map f) = (sortByDesc key l).map f := by
  intro l
  induction l with
  | nil => simp [sortByDesc]
  | cons x xs ih => simp [sortByDesc, ih, insDesc_map key key' f hkey]

/-! ## Lemmas for splitting a string at its first `@` -/

theorem takeWhile_append_cons {α : Type} (p : α → Bool) (a : α) (hpa : p a = false) :
    ∀ (l₁ l₂ : List α), (∀ x ∈ l₁, p x = true) →
      (l₁ ++ a :: l₂).takeWhile p = l₁ ∧ (l₁ ++ a :: l₂).dropWhile p = a :: l₂ := by
  intro l₁
  induction l₁ with
  | nil => intro l₂ _; simp [List.takeWhile_cons, List.dropWhile_cons, hpa]
  | cons x xs ih =>
      intro l₂ hall
      have hx : p x = true := hall x (List.mem_cons_self _ _)
      have hxs : ∀ y ∈ xs, p y = true := fun y hy => hall y (List.mem_cons_of_mem _ hy)
      have hih := ih l₂ hxs
      simp [List.takeWhile_cons, List.dropWhile_cons, hx, hih.1, hih.2]

/-- Case split over the six intents. -/
theorem forall_intent_iff (P : AgentService.QueryIntent → Prop) :
    (∀ i, P i) ↔
      P AgentService.QueryIntent.CLIENT_SEARCH ∧ P AgentService.QueryIntent.APPOINTMENT_QUERY ∧
      P AgentService.QueryIntent.FINANCIAL_QUERY ∧
      P AgentService.QueryIntent.SCHEDULE_MANAGEMENT ∧
      P AgentService.QueryIntent.REPORT_GENERATION ∧ P AgentService.QueryIntent.UNKNOWN := by
  constructor
  · intro h; exact ⟨h _, h _, h _, h _, h _, h _⟩
  · rintro ⟨h1, h2, h3, h4, h5, h6⟩ i
    cases i <;> assumption

/-- A run of `any` over an empty keyword list never matches. -/
theorem anyKeyword_nil (t : List Char) : AgentService.anyKeyword [] t = false := rfl

/-- C7: intent classification is a pure function of the text; on a text
whose lower-cased form matches the term lists of several intents, the
returned intent is the matching one highest in the fixed priority order
patient > appointment > financial > schedule > report > general;
a text matching no list returns the unknown intent; in particular a text
containing both a patient keyword and an appointment keyword classifies
as patient lookup. -/
theorem C7_intent_priority :
    (∀ text : List Char,
      (AgentService.detect_intent text = AgentService.QueryIntent.UNKNOWN ↔
        ∀ i, AgentService.matchesIntent i text = false) ∧
      (∀ i, AgentService.matchesIntent i text = true →
        AgentService.matchesIntent (AgentService.detect_intent text) text = true ∧
        AgentService.intentRank (AgentService.detect_intent text) ≤
          AgentService.intentRank i)) ∧
    AgentService.detect_intent "buscar uma consulta".data
      = AgentService.QueryIntent.CLIENT_SEARCH := by
  constructor
  · intro text
    cases hc : AgentService.anyKeyword AgentService.clientKeywords (pyLower text) <;>
    cases ha : AgentService.anyKeyword AgentService.appointmentKeywords (pyLower text) <;>
    cases hf : AgentService.anyKeyword AgentService.financialKeywords (pyLower text) <;>
    cases hs : AgentService.anyKeyword AgentService.scheduleKeywords (pyLower text) <;>
    cases hr : AgentService.anyKeyword AgentService.reportKeywords (pyLower text) <;>
    simp_all only [AgentService.detect_intent, AgentService.matchesIntent,
      AgentService.intentKeywords, AgentService.intentRank, forall_intent_iff,
      anyKeyword_nil, if_true, if_false, Bool.false_eq_true, Bool.true_eq_false] <;>
    refine ⟨?_, ?_⟩ <;>
    simp_all [forall_intent_iff, AgentService.intentRank]
  · decide

/-- Witness for C7 at the text "buscar uma consulta", which contains both
the patient keyword `buscar` and the appointment keyword `consulta`. -/
theorem C7_intent_priority_witness :
    AgentService.matchesIntent AgentService.QueryIntent.APPOINTMENT_QUERY
      "buscar uma consulta".data = true ∧
    AgentService.matchesIntent
      (AgentService.detect_intent "buscar uma consulta".data)
      "buscar uma consulta".data = true ∧
    AgentService.intentRank (AgentService.detect_intent "buscar uma consulta".data) ≤
      AgentService.intentRank AgentService.QueryIntent.APPOINTMENT_QUERY := by
  have h := (C7_intent_priority.1 "buscar uma consulta".data).2
    AgentService.QueryIntent.APPOINTMENT_QUERY (by decide)
  exact ⟨by decide, h.1, h.2⟩

/-- C9 counterexample: for the non-elevated role `receptionist`, the
retrieved phone value "1234567" (7 characters) is returned unmasked by
`_mask_phone_by_role` — not reduced to its first two and last two
characters around `***` as the claim states for every phone value. -/
theorem C9_short_phone_counterexample :
    ("receptionist".data ∉ HDS.elevatedRoles) ∧
    HDS.mask_phone_by_role "1234567".data "receptionist".data = "1234567".data ∧
    HDS.mask_phone_by_role "1234567".data "receptionist".data ≠
      "1234567".data.take 2 ++ "***".data ++
        "1234567".data.drop ("1234567".data.length - 2) := by
  refine ⟨by decide, by decide, by decide⟩

/-- C9 amended: masking is a pure function of role and value; elevated
roles get phone and email unmasked; for every other role, a phone of at
least 8 characters is reduced to its first two and last two characters
around `***` while a shorter (or empty) phone is returned unchanged, and
an email containing `@` keeps only the first two characters of its local
part before `***@domain` while a string without `@` is returned
unchanged. -/
theorem C9_masking_amended : ∀ (phone email role : List Char),
    (role ∈ HDS.elevatedRoles →
      HDS.mask_phone_by_role phone role = phone ∧
      HDS.mask_email_by_role email role = email) ∧
    (role ∉ HDS.elevatedRoles →
      (8 ≤ phone.length →
        HDS.mask_phone_by_role phone role
          = phone.take 2 ++ "***".data ++ phone.drop (phone.length - 2)) ∧
      (phone.length < 8 → HDS.mask_phone_by_role phone role = phone) ∧
      (∀ localPart domain : List Char,
        email = localPart ++ '@' :: domain → '@' ∉ localPart →
        HDS.mask_email_by_role email role
          = localPart.take 2 ++ "***@".data ++ domain) ∧
      ('@' ∉ email → HDS.mask_email_by_role email role = email)) := by
  intro phone email role
  constructor
  · intro hrole
    exact ⟨by simp [HDS.mask_phone_by_role, hrole],
           by simp [HDS.mask_email_by_role, hrole]⟩
  · intro hrole
    refine ⟨?_, ?_, ?_, ?_⟩
    · intro hlen
      have hne : phone.isEmpty = false := by
        cases phone with
        | nil => simp at hlen
        | cons c cs => simp
      simp [HDS.mask_phone_by_role, HDS.mask_phone, hrole, hne, Nat.not_lt.mpr hlen]
    · intro hlen
      simp [HDS.mask_phone_by_role, HDS.mask_phone, hrole, hlen]
    · intro localPart domain heq hno
      have hall : ∀ x ∈ localPart, (fun ch => decide (ch ≠ '@')) x = true := by
        intro x hx
        simp
        intro hc
        exact hno (hc ▸ hx)
      have hsplit := takeWhile_append_cons (fun ch => decide (ch ≠ '@')) '@'
        (by simp) localPart domain hall
      have hcont : email.contains '@' = true := by
        subst heq
        exact List.elem_iff.mpr (by simp)
      subst heq
      simp only [HDS.mask_email_by_role, hrole, if_false, hcont, if_true]
      rw [hsplit.1, hsplit.2]
      simp [hrole]
    · intro hno
      have hcont : email.contains '@' = false := by simpa using hno
      simp only [HDS.mask_email_by_role, hcont]
      simp [hrole]

/-- Witness for C9 at phone "12345678", email "maria@x.com", role
`receptionist`. -/
theorem C9_masking_witness :
    HDS.mask_phone_by_role "12345678".data "receptionist".data = "12***78".data ∧
    HDS.mask_email_by_role "maria@x.com".data "receptionist".data = "ma***@x.com".data := by
  have h := (C9_masking_amended "12345678".data "maria@x.com".data
    "receptionist".data).2 (by decide)
  constructor
  · rw [h.1 (by decide)]; decide
  · rw [h.2.2.1 "maria".data "x.com".data (by decide) (by decide)]; decide

/-- C6: once the active-connection count equals `max_connections`,
`connect` refuses the socket with close code 1008 and a reason naming the
connection limit, without accepting it and without touching the
active-connection or metadata dicts; and every manager operation
preserves `len(active_connections) <= max_connections`. -/
theorem C6_capacity_invariant :
    ∀ (st : WSManager.WSState) (op : WSManager.WSOp),
      st.active.length ≤ st.max_connections →
      ((WSManager.applyWSOp st op).active.length
          ≤ (WSManager.applyWSOp st op).max_connections ∧
        (WSManager.applyWSOp st op).max_connections = st.max_connections) ∧
      (∀ (ws : Nat) (cid : Option (List Char)) (gen : List Char) (now : Nat),
        st.active.length = st.max_connections →
        WSManager.connect st ws cid gen now
          = (st, [WSManager.WSCmd.close ws 1008 "Maximum connections reached".data])) := by
  intro st op h
  constructor
  · cases op with
    | connectOp ws cid gen now =>
        by_cases hcap : st.max_connections ≤ st.active.length
        · refine ⟨?_, ?_⟩ <;> simp [WSManager.applyWSOp, WSManager.connect, hcap]
          exact h
        · have hlt := lt_of_not_le hcap
          refine ⟨?_, ?_⟩ <;>
            simp only [WSManager.applyWSOp, WSManager.connect, if_neg hcap]
          exact le_trans (length_dictSet_le _ _ _) hlt
    | disconnectOp ws =>
        cases hf : st.active.find? (fun q => q.2 == ws) with
        | none => refine ⟨?_, ?_⟩ <;> simp [WSManager.applyWSOp, WSManager.disconnect, hf]
                  exact h
        | some q =>
            refine ⟨?_, ?_⟩ <;>
              simp [WSManager.applyWSOp, WSManager.disconnect, hf, dictRemove]
            exact le_trans (List.length_filter_le _ _) h
    | closeAllOp =>
        refine ⟨?_, ?_⟩ <;> simp [WSManager.applyWSOp, WSManager.close_all]
    | handleMessageOp ws now =>
        cases hf : st.active.find? (fun q => q.2 == ws) with
        | none =>
            refine ⟨?_, ?_⟩ <;>
              simp [WSManager.applyWSOp, WSManager.handle_message, hf]
            exact h
        | some q =>
            cases hm : dictGet q.1 st.metadata with
            | none =>
                refine ⟨?_, ?_⟩ <;>
                  simp [WSManager.applyWSOp, WSManager.handle_message, hf, hm]
                exact h
            | some m =>
                refine ⟨?_, ?_⟩ <;>
                  simp [WSManager.applyWSOp, WSManager.handle_message, hf, hm]
                exact h
  · intro ws cid gen now hcap
    have hle : st.max_connections ≤ st.active.length := le_of_eq hcap.symm
    simp [WSManager.connect, hle]

/-- Witness for C6 at a manager holding one connection with capacity 1:
the connect attempt is refused with code 1008 and the state is unchanged,
and the invariant is preserved. -/
theorem C6_capacity_witness :
    WSManager.connect fxWSFull 9 none "c2".data 5
      = (fxWSFull, [WSManager.WSCmd.close 9 1008 "Maximum connections reached".data]) ∧
    (WSManager.applyWSOp fxWSFull (WSManager.WSOp.connectOp 9 none "c2".data 5)).active.length
      ≤ (WSManager.applyWSOp fxWSFull
          (WSManager.WSOp.connectOp 9 none "c2".data 5)).max_connections := by
  have h := C6_capacity_invariant fxWSFull
    (WSManager.WSOp.connectOp 9 none "c2".data 5) (by decide)
  exact ⟨h.2 9 none "c2".data 5 (by decide), h.1.1⟩

/-- C5: a session's `message_count` is monotonically non-decreasing under
every session-touching operation and every sequence of them (it is never
decremented or reset while the session lives), and every heartbeat event
emitted for the session (`AGUISession.heartbeat`, also used by the
heartbeat loop and by the heartbeat echo handler) carries the session's
current running `message_count` in its data. -/
theorem C5_message_count_monotone :
    (∀ (s : AGUI.AGUISession) (op : AGUI.SessionOp),
      s.message_count ≤ ((AGUI.applyOp s op).1).message_count) ∧
    (∀ (s : AGUI.AGUISession) (ops : List AGUI.SessionOp),
      s.message_count ≤ (AGUI.applyOps s ops).message_count) ∧
    (∀ (s : AGUI.AGUISession) (t : Nat),
      ((AGUI.heartbeat s t).2).event.type = AGUI.AGUIEventType.heartbeat ∧
      ((AGUI.heartbeat s t).2).event.data = AGUI.EventData.hbInfo t s.message_count) ∧
    (∀ (s : AGUI.AGUISession) (e : AGUI.AGUIEvent) (now : Nat),
      e.type = AGUI.AGUIEventType.heartbeat →
      ∀ f ∈ (AGUI.handle_event s e now).2,
        f.event.type = AGUI.AGUIEventType.heartbeat ∧
        f.event.data = AGUI.EventData.hbInfo now s.message_count) := by
  have h1 : ∀ (s : AGUI.AGUISession) (op : AGUI.SessionOp),
      s.message_count ≤ ((AGUI.applyOp s op).1).message_count := by
    intro s op
    cases op with
    | sendEvent e now => simp [AGUI.applyOp, AGUI.send_event]
    | sendMessage c now => simp [AGUI.applyOp, AGUI.send_message, AGUI.send_event]
    | sendError c m now => simp [AGUI.applyOp, AGUI.send_error, AGUI.send_event]
    | heartbeatOp t => simp [AGUI.applyOp, AGUI.heartbeat, AGUI.send_event]
    | handleEvent e now =>
        cases he : e.type <;>
          simp [AGUI.applyOp, AGUI.handle_event, he, AGUI.heartbeat,
            AGUI.send_message, AGUI.send_event]
  refine ⟨h1, ?_, ?_, ?_⟩
  · intro s ops
    induction ops generalizing s with
    | nil => simp [AGUI.applyOps]
    | cons op ops ih =>
        simp only [AGUI.applyOps]
        exact le_trans (h1 s op) (ih _)
  · intro s t
    exact ⟨rfl, rfl⟩
  · intro s e now he f hf
    simp [AGUI.handle_event, he, AGUI.heartbeat, AGUI.send_event] at hf
    subst hf
    exact ⟨rfl, rfl⟩

/-- Witness for C5 at a session with `message_count = 3`: a heartbeat at
tick 5 emits a heartbeat frame carrying count 3, and the count does not
decrease; the heartbeat echo handler behaves the same at tick 9. -/
theorem C5_message_count_witness :
    fxSession.message_count
      ≤ ((AGUI.applyOp fxSession (AGUI.SessionOp.heartbeatOp 5)).1).message_count ∧
    ((AGUI.heartbeat fxSession 5).2).event.data = AGUI.EventData.hbInfo 5 3 ∧
    ∀ f ∈ (AGUI.handle_event fxSession
        ⟨AGUI.AGUIEventType.heartbeat, none, none, AGUI.EventData.payload []⟩ 9).2,
      f.event.data = AGUI.EventData.hbInfo 9 3 := by
  refine ⟨C5_message_count_monotone.1 fxSession _, ?_, ?_⟩
  · exact (C5_message_count_monotone.2.2.1 fxSession 5).2
  · intro f hf
    exact (C5_message_count_monotone.2.2.2 fxSession
      ⟨AGUI.AGUIEventType.heartbeat, none, none, AGUI.EventData.payload []⟩ 9 rfl f hf).2

/-- C2 counterexample: `create_session` performs no `user_id` validation;
called with the empty user id it raises nothing, adds the new session to
the session dict, and emits the connection-established event — contrary
to the claim that an `AuthenticationError` is raised, no session is
added, and no connection event is emitted. -/
theorem C2_empty_user_counterexample :
    (dictGet "sid1".data ((AGUI.create_session ⟨[]⟩ "sid1".data [] 0).1).sessions).isSome
      = true ∧
    ((AGUI.create_session ⟨[]⟩ "sid1".data [] 0).2.2).event.type
      = AGUI.AGUIEventType.connection := by
  exact ⟨by decide, by decide⟩

/-- C2 amended: an empty `user_id` is rejected upstream of
`create_session`, at the websocket endpoint of `main.py`: `validate_user`
returns false and the socket is closed with code 4000 and reason
"Authentication failed" without `create_session` running, so no session
is added to the session dict and no connection event is emitted. -/
theorem C2_empty_user_amended :
    ∀ (p : AGUI.AGUIProtocol) (sid uid : List Char) (now : Nat),
      uid = [] →
      AGUI.validate_user uid = false ∧
      AGUI.websocket_endpoint p uid sid now
        = (p, [AGUI.SockCmd.accept,
               AGUI.SockCmd.close 4000 "Authentication failed".data]) := by
  intro p sid uid now h
  subst h
  refine ⟨by decide, ?_⟩
  simp [AGUI.websocket_endpoint, show AGUI.validate_user [] = false from by decide]

/-- Witness for C2 at the empty protocol state and empty user id. -/
theorem C2_empty_user_witness :
    AGUI.websocket_endpoint ⟨[]⟩ [] "sid1".data 0
      = (⟨[]⟩, [AGUI.SockCmd.accept,
                AGUI.SockCmd.close 4000 "Authentication failed".data]) :=
  (C2_empty_user_amended ⟨[]⟩ "sid1".data [] 0 rfl).2

/-- C3 counterexample: an inbound `message` frame marked encrypted whose
payload fails to decrypt is handled without sending any error event with
code `DECRYPT_FAILED` (the source merely logs a warning), contrary to the
claim that the engine reports the failure to the client under that code;
the loop does continue. -/
theorem C3_decrypt_counterexample :
    (∀ f ∈ (AGUI.receiveStep (fun _ => none) ⟨[("sid1".data, fxSession)]⟩ fxSession 1
        (AGUI.Inbound.frame (some "message".data) true "zzz".data)).2.1,
      frameErrCode f ≠ some "DECRYPT_FAILED".data) ∧
    (AGUI.receiveStep (fun _ => none) ⟨[("sid1".data, fxSession)]⟩ fxSession 1
      (AGUI.Inbound.frame (some "message".data) true "zzz".data)).2.2 = true := by
  exact ⟨by decide, by decide⟩

/-- C3 amended: when the payload of a frame marked encrypted fails to
decrypt, the handler does not crash or close the connection — the receive
loop continues, the session stays in the active-session dict, and the
event is processed exactly as if the frame had not been marked encrypted
(the original payload is kept); no error event with code `DECRYPT_FAILED`
(or any such report) is sent. -/
theorem C3_decrypt_failure_amended :
    ∀ (decryptFn : List Char → Option (List Char)) (p : AGUI.AGUIProtocol)
      (s : AGUI.AGUISession) (now : Nat) (typeStr : Option (List Char))
      (dataRaw : List Char),
      decryptFn dataRaw = none →
      AGUI.receiveStep decryptFn p s now (AGUI.Inbound.frame typeStr true dataRaw)
        = AGUI.receiveStep decryptFn p s now (AGUI.Inbound.frame typeStr false dataRaw) ∧
      (AGUI.receiveStep decryptFn p s now
        (AGUI.Inbound.frame typeStr true dataRaw)).2.2 = true ∧
      (dictGet s.session_id
        ((AGUI.receiveStep decryptFn p s now
          (AGUI.Inbound.frame typeStr true dataRaw)).1).sessions).isSome = true ∧
      (∀ f ∈ (AGUI.receiveStep decryptFn p s now
          (AGUI.Inbound.frame typeStr true dataRaw)).2.1,
        frameErrCode f ≠ some "DECRYPT_FAILED".data) := by
  intro decryptFn p s now typeStr dataRaw hdec
  cases hty : AGUI.eventTypeOfString (typeStr.getD "message".data) with
  | none =>
      refine ⟨?_, ?_, ?_, ?_⟩
      · simp [AGUI.receiveStep, hty]
      · simp [AGUI.receiveStep, hty]
      · simp [AGUI.receiveStep, hty, AGUI.send_error, AGUI.send_event,
          dictGet_dictSet_self]
      · intro f hf
        simp [AGUI.receiveStep, hty, AGUI.send_error, AGUI.send_event] at hf
        subst hf
        simp [frameErrCode]
  | some ty =>
      refine ⟨?_, ?_, ?_, ?_⟩
      · cases dataRaw with
        | nil => simp [AGUI.receiveStep, hty]
        | cons c cs => simp [AGUI.receiveStep, hty, hdec]
      · simp [AGUI.receiveStep, hty]
      · simp only [AGUI.receiveStep, hty]
        simp [dictGet_dictSet_self]
      · intro f hf
        simp only [AGUI.receiveStep, hty] at hf
        rcases f with ⟨⟨fty, fsid, fuid, fdata⟩, fenc⟩
        cases ty <;>
          simp_all [AGUI.handle_event, AGUI.heartbeat, AGUI.send_message,
            AGUI.send_event, frameErrCode]

/-- Witness for C3: with a decrypt function that always fails, the
encrypted frame is processed exactly like the unencrypted one. -/
theorem C3_decrypt_failure_witness :
    AGUI.receiveStep (fun _ => none) ⟨[("sid1".data, fxSession)]⟩ fxSession 1
        (AGUI.Inbound.frame (some "message".data) true "zzz".data)
      = AGUI.receiveStep (fun _ => none) ⟨[("sid1".data, fxSession)]⟩ fxSession 1
        (AGUI.Inbound.frame (some "message".data) false "zzz".data) :=
  (C3_decrypt_failure_amended (fun _ => none) ⟨[("sid1".data, fxSession)]⟩ fxSession 1
    (some "message".data) "zzz".data rfl).1

/-- C4: a frame that fails JSON parsing yields exactly one `error` event
with code `INVALID_FORMAT`; a parsed frame whose `type` string is not a
recognized event type yields exactly one `error` event with code
`INVALID_EVENT_TYPE`; in both cases the receive loop continues (the
connection is not closed by the bad event), the session stays in the
active-session dict, and no session is removed from it. -/
theorem C4_bad_frame_handling :
    ∀ (decryptFn : List Char → Option (List Char)) (p : AGUI.AGUIProtocol)
      (s : AGUI.AGUISession) (now : Nat),
      ((AGUI.receiveStep decryptFn p s now AGUI.Inbound.malformed).2.1.length = 1 ∧
       (∀ f ∈ (AGUI.receiveStep decryptFn p s now AGUI.Inbound.malformed).2.1,
         f.event.type = AGUI.AGUIEventType.error ∧
         frameErrCode f = some "INVALID_FORMAT".data) ∧
       (AGUI.receiveStep decryptFn p s now AGUI.Inbound.malformed).2.2 = true ∧
       (dictGet s.session_id
         ((AGUI.receiveStep decryptFn p s now AGUI.Inbound.malformed).1).sessions).isSome
         = true ∧
       (∀ sid, (dictGet sid p.sessions).isSome = true →
         (dictGet sid
           ((AGUI.receiveStep decryptFn p s now AGUI.Inbound.malformed).1).sessions).isSome
           = true)) ∧
      (∀ (typeStr : Option (List Char)) (enc : Bool) (dataRaw : List Char),
        AGUI.eventTypeOfString (typeStr.getD "message".data) = none →
        ((AGUI.receiveStep decryptFn p s now
            (AGUI.Inbound.frame typeStr enc dataRaw)).2.1.length = 1 ∧
         (∀ f ∈ (AGUI.receiveStep decryptFn p s now
             (AGUI.Inbound.frame typeStr enc dataRaw)).2.1,
           f.event.type = AGUI.AGUIEventType.error ∧
           frameErrCode f = some "INVALID_EVENT_TYPE".data) ∧
         (AGUI.receiveStep decryptFn p s now
           (AGUI.Inbound.frame typeStr enc dataRaw)).2.2 = true ∧
         (dictGet s.session_id
           ((AGUI.receiveStep decryptFn p s now
             (AGUI.Inbound.frame typeStr enc dataRaw)).1).sessions).isSome = true ∧
         (∀ sid, (dictGet sid p.sessions).isSome = true →
           (dictGet sid
             ((AGUI.receiveStep decryptFn p s now
               (AGUI.Inbound.frame typeStr enc dataRaw)).1).sessions).isSome = true))) := by
  intro decryptFn p s now
  have hpres : ∀ (s' : AGUI.AGUISession) (sid : List Char),
      (dictGet sid p.sessions).isSome = true →
      (dictGet sid (dictSet s.session_id s' p.sessions)).isSome = true := by
    intro s' sid hs
    by_cases hid : sid = s.session_id
    · subst hid
      simp [dictGet_dictSet_self]
    · rw [dictGet_dictSet_ne _ hid]
      exact hs
  constructor
  · refine ⟨?_, ?_, ?_, ?_, ?_⟩
    · simp [AGUI.receiveStep, AGUI.send_error, AGUI.send_event]
    · intro f hf
      simp [AGUI.receiveStep, AGUI.send_error, AGUI.send_event] at hf
      subst hf
      exact ⟨rfl, rfl⟩
    · simp [AGUI.receiveStep]
    · simp [AGUI.receiveStep, dictGet_dictSet_self]
    · intro sid hs
      simp only [AGUI.receiveStep]
      exact hpres _ sid hs
  · intro typeStr enc dataRaw hty
    refine ⟨?_, ?_, ?_, ?_, ?_⟩
    · simp [AGUI.receiveStep, hty, AGUI.send_error, AGUI.send_event]
    · intro f hf
      simp [AGUI.receiveStep, hty, AGUI.send_error, AGUI.send_event] at hf
      subst hf
      exact ⟨rfl, rfl⟩
    · simp [AGUI.receiveStep, hty]
    · simp [AGUI.receiveStep, hty, dictGet_dictSet_self]
    · intro sid hs
      simp only [AGUI.receiveStep, hty]
      exact hpres _ sid hs

/-- Witness for C4 at a concrete session and the unrecognized type string
"bogus". -/
theorem C4_bad_frame_witness :
    (∀ f ∈ (AGUI.receiveStep (fun _ => none) ⟨[("sid1".data, fxSession)]⟩ fxSession 1
        AGUI.Inbound.malformed).2.1,
      frameErrCode f = some "INVALID_FORMAT".data) ∧
    (∀ f ∈ (AGUI.receiveStep (fun _ => none) ⟨[("sid1".data, fxSession)]⟩ fxSession 1
        (AGUI.Inbound.frame (some "bogus".data) false [])).2.1,
      frameErrCode f = some "INVALID_EVENT_TYPE".data) ∧
    (dictGet "sid1".data
      ((AGUI.receiveStep (fun _ => none) ⟨[("sid1".data, fxSession)]⟩ fxSession 1
        (AGUI.Inbound.frame (some "bogus".data) false [])).1).sessions).isSome = true := by
  have h := C4_bad_frame_handling (fun _ => none) ⟨[("sid1".data, fxSession)]⟩ fxSession 1
  have h2 := h.2 (some "bogus".data) false [] (by decide)
  exact ⟨fun f hf => (h.1.2.1 f hf).2, fun f hf => (h2.2.1 f hf).2,
    h2.2.2.2.2 "sid1".data (by decide)⟩

/-- After the semantic loop of `_combine_results`, every dict entry has
`keyword_score = 0` and `combined_score = semantic_score * semantic_weight`. -/
theorem combine_semantic_invariant (ws : ℚ) :
    ∀ (sem : List VectorStore.SearchRow) (acc : List (Nat × VectorStore.RankedRow)),
      (∀ q ∈ acc, q.2.keyword_score = 0 ∧
        q.2.combined_score = q.2.semantic_score * ws) →
      ∀ q ∈ sem.foldl (VectorStore.addSemantic ws) acc,
        q.2.keyword_score = 0 ∧ q.2.combined_score = q.2.semantic_score * ws := by
  intro sem
  induction sem with
  | nil => intro acc hacc q hq; exact hacc q hq
  | cons r rs ih =>
      intro acc hacc q hq
      refine ih _ ?_ q hq
      intro q' hq'
      rcases mem_dictSet _ _ _ q' hq' with h1 | h2
      · subst h1; exact ⟨rfl, rfl⟩
      · exact hacc q' h2

/-- After the keyword loop of `_combine_results`, run on a keyword list
with pairwise-distinct document ids over a dict whose entries satisfy the
weighted-sum equation (with the entries still to be touched having no
keyword contribution yet), every entry satisfies
`combined_score = semantic_score * semantic_weight + keyword_score *
keyword_weight`. -/
theorem combine_keyword_invariant (ws wk : ℚ) :
    ∀ (kws : List VectorStore.SearchRow) (acc : List (Nat × VectorStore.RankedRow)),
      (kws.map (fun r => r.rid)).Nodup →
      (∀ q ∈ acc,
        (q.2.combined_score = q.2.semantic_score * ws + q.2.keyword_score * wk) ∧
        (q.1 ∈ kws.map (fun r => r.rid) →
          q.2.keyword_score = 0 ∧ q.2.combined_score = q.2.semantic_score * ws)) →
      ∀ q ∈ kws.foldl (VectorStore.addKeyword wk) acc,
        q.2.combined_score = q.2.semantic_score * ws + q.2.keyword_score * wk := by
  intro kws
  induction kws with
  | nil => intro acc _ hacc q hq; exact (hacc q hq).1
  | cons k ks ih =>
      intro acc hnd hacc q hq
      have hnd' : (ks.map (fun r => r.rid)).Nodup := (List.nodup_cons.mp hnd).2
      have hnotin : k.rid ∉ ks.map (fun r => r.rid) := (List.nodup_cons.mp hnd).1
      refine ih _ hnd' ?_ q hq
      intro q' hq'
      simp only [VectorStore.addKeyword] at hq'
      cases hget : dictGet k.rid acc with
      | some e =>
          rw [hget] at hq'
          have hmem := dictGet_mem hget
          have he := hacc _ hmem
          have hQ := he.2 (by simp)
          rcases mem_dictSet _ _ _ q' hq' with h1 | h2
          · subst h1
            constructor
            · show e.combined_score + k.keyword_score * wk
                = e.semantic_score * ws + k.keyword_score * wk
              rw [hQ.2]
            · intro hmem'
              exact absurd hmem' hnotin
          · have hq2 := hacc q' h2
            exact ⟨hq2.1, fun hm => hq2.2 (by simp [hm])⟩
      | none =>
          rw [hget] at hq'
          rcases mem_dictSet _ _ _ q' hq' with h1 | h2
          · subst h1
            constructor
            · simp only
              ring
            · intro hmem'
              exact absurd hmem' hnotin
          · have hq2 := hacc q' h2
            exact ⟨hq2.1, fun hm => hq2.2 (by simp [hm])⟩

/-- C1 counterexample: on a keyword result list that repeats a document
id, `_combine_results` adds the keyword contribution into
`combined_score` once per occurrence while `keyword_score` keeps only the
last value, so the returned item violates
`combined_score = w_s * semantic_score + w_k * keyword_score`. -/
theorem C1_duplicate_id_counterexample :
    ∃ e ∈ VectorStore.combine_results [] [fxDup, fxDup] (7/10) (3/10) 10,
      e.combined_score ≠ (7/10) * e.semantic_score + (3/10) * e.keyword_score := by
  refine ⟨⟨fxDup, 0, (1/2 : ℚ), (3/10 : ℚ)⟩, ?_, ?_⟩
  · norm_num [VectorStore.combine_results, VectorStore.addKeyword,
      VectorStore.addSemantic, dictGet, dictSet, sortByDesc, insDesc, fxDup,
      List.foldl]
  · norm_num

/-- C1 amended: provided the keyword result list has pairwise-distinct
document ids (which duplicates from a single index scan never violate),
every item returned by the `_combine_results` merge step satisfies
`combined_score = w_s * semantic_score + w_k * keyword_score` (a score
missing on one side counted as 0), the returned list is sorted in
descending order of `combined_score`, and its length is at most `limit`;
with the default weights 0.7/0.3, the document with semantic 0.6 and
keyword 1.0 (combined 0.72) ranks above the document with semantic 1.0
and keyword 0.0 (combined 0.70). -/
theorem C1_hybrid_merge_amended :
    ∀ (semantic keyword : List VectorStore.SearchRow) (ws wk : ℚ) (limit : Nat),
      (keyword.map (fun r => r.rid)).Nodup →
      (∀ e ∈ VectorStore.combine_results semantic keyword ws wk limit,
        e.combined_score = ws * e.semantic_score + wk * e.keyword_score) ∧
      (VectorStore.combine_results semantic keyword ws wk limit).Pairwise
        (fun a b => b.combined_score ≤ a.combined_score) ∧
      (VectorStore.combine_results semantic keyword ws wk limit).length ≤ limit ∧
      (VectorStore.combine_results [fxSemA, fxSemB] [fxKwB] (7/10) (3/10) 10).map
        (fun e => e.result.rid) = [2, 1] := by
  intro semantic keyword ws wk limit hnd
  refine ⟨?_, ?_, ?_, ?_⟩
  case refine_4 =>
    norm_num [VectorStore.combine_results, VectorStore.addKeyword,
      VectorStore.addSemantic, dictGet, dictSet, sortByDesc, insDesc,
      fxSemA, fxSemB, fxKwB, List.foldl]
  · intro e he
    simp only [VectorStore.combine_results] at he
    have h1 := List.take_subset limit _ he
    have h2 := mem_sortByDesc _ _ e h1
    obtain ⟨q, hq, hqe⟩ := List.mem_map.mp h2
    have hstep1 : ∀ q' ∈ semantic.foldl (VectorStore.addSemantic ws) [],
        q'.2.keyword_score = 0 ∧ q'.2.combined_score = q'.2.semantic_score * ws :=
      combine_semantic_invariant ws semantic [] (by simp)
    have hP := combine_keyword_invariant ws wk keyword
      (semantic.foldl (VectorStore.addSemantic ws) []) hnd
      (fun q' hq' => ⟨by rw [(hstep1 q' hq').2, (hstep1 q' hq').1]; ring,
                      fun _ => hstep1 q' hq'⟩) q hq
    rw [← hqe]
    rw [hP]
    ring
  · simp only [VectorStore.combine_results]
    exact List.Pairwise.sublist (List.take_sublist _ _) (sorted_sortByDesc _ _)
  · simp only [VectorStore.combine_results]
    exact List.length_take_le _ _

/-- Witness for C1 at the hand-computed fixture with the default weights:
document 2 (combined 0.72) ranks above document 1 (combined 0.70) and
every returned item satisfies the weighted-sum equation. -/
theorem C1_hybrid_merge_witness :
    ((VectorStore.combine_results [fxSemA, fxSemB] [fxKwB] (7/10) (3/10) 10).map
      (fun e => e.result.rid) = [2, 1]) ∧
    ∀ e ∈ VectorStore.combine_results [fxSemA, fxSemB] [fxKwB] (7/10) (3/10) 10,
      e.combined_score = (7/10) * e.semantic_score + (3/10) * e.keyword_score := by
  have h := C1_hybrid_merge_amended [fxSemA, fxSemB] [fxKwB] (7/10) (3/10) 10 (by decide)
  exact ⟨h.2.2.2, h.1⟩

/-- C8: every result of `similarity_search` has similarity at least
`score_threshold` (default 0.7, the value `hybrid_search` uses) and its
`similarity_score` field equals the underlying similarity; the keyword
path applies no similarity threshold — its output is invariant under
arbitrary changes of the rows' `similarity` field; and a document with
similarity 0.5, excluded from vector-only results, still appears in
`hybrid_search` output through a keyword match. -/
theorem C8_threshold_and_keyword_path :
    (∀ (rows : List VectorStore.SearchRow) (thr : ℚ) (r : VectorStore.SearchRow),
      r ∈ VectorStore.similarity_search rows thr →
      thr ≤ r.similarity ∧ r.similarity_score = r.similarity) ∧
    (∀ (q : List Char) (rows : List VectorStore.SearchRow) (lim : Nat) (c : ℚ),
      VectorStore.keyword_search q (rows.map (fun r => { r with similarity := c })) lim
        = (VectorStore.keyword_search q rows lim).map
            (fun r => { r with similarity := c })) ∧
    ((VectorStore.similarity_search [fxPromo] (7/10)).map (fun r => r.rid) = [] ∧
     (VectorStore.hybrid_search "promo".data [fxPromo] [fxPromo] 10 (7/10) (3/10)).map
       (fun e => e.result.rid) = [5]) := by
  refine ⟨?_, ?_, ?_, ?_⟩
  · intro rows thr r hr
    simp only [VectorStore.similarity_search] at hr
    obtain ⟨a, ha, hfa⟩ := List.mem_filterMap.mp hr
    by_cases h : thr ≤ a.similarity
    · rw [if_pos h] at hfa
      obtain rfl := Option.some.inj hfa
      exact ⟨h, rfl⟩
    · rw [if_neg h] at hfa
      exact absurd hfa (by simp)
  · intro q rows lim c
    simp only [VectorStore.keyword_search]
    rw [List.filterMap_map, List.map_take, ← sortByDesc_map
      (fun r : VectorStore.SearchRow => r.keyword_score)
      (fun r : VectorStore.SearchRow => r.keyword_score)
      (fun r => { r with similarity := c }) (fun x => rfl)]
    rw [List.map_filterMap]
    refine congrArg
      (fun l => (sortByDesc (fun r : VectorStore.SearchRow => r.keyword_score) l).take lim) ?_
    refine congrFun (congrArg _ (funext fun r => ?_)) rows
    simp only [Function.comp]
    by_cases h : 0 < VectorStore.matchScore (pySplitWs (pyLower q))
      (pyLower r.content) r.metaVals
    · simp [h]
    · simp [h]
  · norm_num [VectorStore.similarity_search, fxPromo]
  · norm_num [VectorStore.hybrid_search, VectorStore.similarity_search,
      VectorStore.keyword_search, VectorStore.combine_results,
      VectorStore.matchScore, VectorStore.metaScore, VectorStore.addSemantic,
      VectorStore.addKeyword, pySplitWs, splitWsAux, pyLower, pyLowerChar,
      hasSub, dictGet, dictSet, sortByDesc, insDesc, fxPromo, List.foldl,
      List.isPrefixOf, List.filterMap_cons, List.filterMap_nil, List.take_cons,
      List.take_nil, Char.isWhitespace]

/-- Witness for C8 at a document of similarity 1.0 with the default
threshold. -/
theorem C8_threshold_witness :
    ((7:ℚ)/10 ≤ fxSimOk.similarity ∧ fxSimOk.similarity_score = fxSimOk.similarity) := by
  have hmem : fxSimOk ∈ VectorStore.similarity_search [fxSimOk] (7/10) := by
    norm_num [VectorStore.similarity_search, fxSimOk]
  exact C8_threshold_and_keyword_path.1 [fxSimOk] (7/10) fxSimOk hmem

theorem zip_xor_cancel :
    ∀ (a b : List Nat), a.length ≤ b.length →
      List.zipWith Nat.xor (List.zipWith Nat.xor a b) b = a := by
  intro a
  induction a with
  | nil => intro b _; simp
  | cons x xs ih =>
      intro b hb
      cases b with
      | nil => simp at hb
      | cons y ys =>
          simp only [List.zipWith_cons_cons, List.cons.injEq]
          exact ⟨Nat.xor_cancel_right y x, ih ys (by simpa using hb)⟩

theorem zip_xor_lt :
    ∀ (a b : List Nat), (∀ x ∈ a, x < 256) → (∀ x ∈ b, x < 256) →
      ∀ x ∈ List.zipWith Nat.xor a b, x < 256 := by
  intro a
  induction a with
  | nil => intro b _ _ x hx; simp at hx
  | cons u us ih =>
      intro b ha hb x hx
      cases b with
      | nil => simp at hx
      | cons v vs =>
          simp only [List.zipWith_cons_cons, List.mem_cons] at hx
          rcases hx with h1 | h2
          · subst h1
            have hu := ha u (by simp)
            have hv := hb v (by simp)
            have := Nat.xor_lt_two_pow (n := 8) (by simpa using hu) (by simpa using hv)
            simpa using this
          · exact ih vs (fun y hy => ha y (by simp [hy]))
              (fun y hy => hb y (by simp [hy])) x h2

theorem cfbEncF_nil : ∀ (fuel : Nat) (E : List Nat → List Nat) (reg : List Nat),
    Crypto.cfbEncF fuel E reg [] = [] := by
  intro fuel E reg
  cases fuel <;> simp [Crypto.cfbEncF]

theorem cfbEncF_length (E : List Nat → List Nat) (hE : Crypto.GoodBlockCipher E) :
    ∀ (fuel : Nat) (p reg : List Nat), p.length ≤ fuel →
      (Crypto.cfbEncF fuel E reg p).length = p.length := by
  intro fuel
  induction fuel with
  | zero =>
      intro p reg hp
      have : p = [] := List.length_eq_zero.mp (Nat.le_zero.mp hp)
      subst this
      simp [Crypto.cfbEncF]
  | succ n ih =>
      intro p reg hp
      cases p with
      | nil => simp [Crypto.cfbEncF]
      | cons x xs =>
          simp only [Crypto.cfbEncF, List.isEmpty_cons, Bool.false_eq_true,
            if_false, List.length_append]
          have hlen1 : (List.zipWith Nat.xor ((x :: xs).take 16) (E reg)).length
              = min (x :: xs).length 16 := by
            simp [List.length_zipWith, (hE reg).1]
            omega
          have hrest : ((x :: xs).drop 16).length ≤ n := by
            simp only [List.length_drop]
            simp only [List.length_cons] at hp ⊢
            omega
          rw [ih _ _ hrest, hlen1]
          simp only [List.length_drop]
          simp only [List.length_cons]
          omega

theorem cfbEncF_bytes_lt (E : List Nat → List Nat) (hE : Crypto.GoodBlockCipher E) :
    ∀ (fuel : Nat) (p reg : List Nat), (∀ x ∈ p, x < 256) →
      ∀ x ∈ Crypto.cfbEncF fuel E reg p, x < 256 := by
  intro fuel
  induction fuel with
  | zero => intro p reg _ x hx; simp [Crypto.cfbEncF] at hx
  | succ n ih =>
      intro p reg hp x hx
      cases p with
      | nil => simp [Crypto.cfbEncF] at hx
      | cons a as =>
          simp only [Crypto.cfbEncF, List.isEmpty_cons, Bool.false_eq_true,
            if_false, List.mem_append] at hx
          rcases hx with h1 | h2
          · exact zip_xor_lt _ _ (fun y hy => hp y (List.take_subset _ _ hy))
              (hE reg).2 x h1
          · exact ih _ _ (fun y hy => hp y (List.drop_subset _ _ hy)) x h2

theorem cfbDecF_nil : ∀ (fuel : Nat) (E : List Nat → List Nat) (reg : List Nat),
    Crypto.cfbDecF fuel E reg [] = [] := by
  intro fuel E reg
  cases fuel <;> simp [Crypto.cfbDecF]

theorem cfbDecF_cfbEncF (E : List Nat → List Nat) (hE : Crypto.GoodBlockCipher E) :
    ∀ (fuel1 : Nat) (p : List Nat) (fuel2 : Nat) (reg : List Nat),
      p.length ≤ fuel1 → p.length ≤ fuel2 →
      Crypto.cfbDecF fuel2 E reg (Crypto.cfbEncF fuel1 E reg p) = p := by
  intro fuel1
  induction fuel1 with
  | zero =>
      intro p fuel2 reg hp1 _
      have : p = [] := List.length_eq_zero.mp (Nat.le_zero.mp hp1)
      subst this
      rw [cfbEncF_nil, cfbDecF_nil]
  | succ n ih =>
      intro p fuel2 reg hp1 hp2
      cases p with
      | nil => rw [cfbEncF_nil, cfbDecF_nil]
      | cons a as =>
          have hfpos : 0 < fuel2 := by
            simp only [List.length_cons] at hp2
            omega
          obtain ⟨m, rfl⟩ := Nat.exists_eq_succ_of_ne_zero (Nat.pos_iff_ne_zero.mp hfpos)
          set c := List.zipWith Nat.xor ((a :: as).take 16) (E reg) with hc
          have hclen : c.length = min (a :: as).length 16 := by
            rw [hc, List.length_zipWith, (hE reg).1, List.length_take]
            omega
          have hcpos : c ≠ [] := by
            intro hnil
            rw [hnil] at hclen
            simp only [List.length_nil, List.length_cons] at hclen
            omega
          have hxor : List.zipWith Nat.xor c (E reg) = (a :: as).take 16 := by
            rw [hc]
            refine zip_xor_cancel _ _ ?_
            rw [(hE reg).1, List.length_take]
            omega
          have henc : Crypto.cfbEncF (n + 1) E reg (a :: as)
              = c ++ Crypto.cfbEncF n E c ((a :: as).drop 16) := by
            simp [Crypto.cfbEncF, hc]
          rw [henc]
          by_cases hbig : 16 ≤ (a :: as).length
          · have hc16 : c.length = 16 := by omega
            have htake : (c ++ Crypto.cfbEncF n E c ((a :: as).drop 16)).take 16 = c := by
              rw [List.take_append_of_le_length (by omega)]
              exact List.take_of_length_le (by omega)
            have hdrop : (c ++ Crypto.cfbEncF n E c ((a :: as).drop 16)).drop 16
                = Crypto.cfbEncF n E c ((a :: as).drop 16) := by
              rw [List.drop_append_of_le_length (by omega)]
              rw [show List.drop 16 c = [] from by rw [← hc16]; exact List.drop_length c]
              rfl
            have hne : (c ++ Crypto.cfbEncF n E c ((a :: as).drop 16)) ≠ [] := by
              simp [hcpos]
            simp only [Crypto.cfbDecF, List.isEmpty_eq_true, hne, if_false, htake, hdrop]
            rw [hxor]
            have hr1 : ((a :: as).drop 16).length ≤ n := by
              simp only [List.length_drop, List.length_cons]
              simp only [List.length_cons] at hp1
              omega
            have hr2 : ((a :: as).drop 16).length ≤ m := by
              simp only [List.length_drop, List.length_cons]
              simp only [List.length_cons] at hp2
              omega
            rw [ih _ _ _ hr1 hr2]
            exact List.take_append_drop 16 (a :: as)
          · have hdropnil : (a :: as).drop 16 = [] := by
              apply List.drop_eq_nil_of_le
              omega
            rw [hdropnil, cfbEncF_nil, List.append_nil]
            have hclt : c.length ≤ 16 := by omega
            have htake : List.take 16 c = c := List.take_of_length_le hclt
            have hdropc : List.drop 16 c = [] := List.drop_eq_nil_of_le hclt
            simp only [Crypto.cfbDecF, List.isEmpty_eq_true, hcpos, if_false, htake, hdropc,
              cfbDecF_nil, List.append_nil]
            rw [hxor]
            exact List.take_of_length_le (by omega)

theorem b64Char_ne : ∀ n < 64, Crypto.b64Char n ≠ '=' := by decide

theorem b64Val_b64Char : ∀ n < 64, Crypto.b64Val (Crypto.b64Char n) = n := by decide

theorem b64Decode_pad2 (c1 c2 : Char) :
    Crypto.b64Decode [c1, c2, '=', '=']
      = [Crypto.b64Val c1 * 4 + Crypto.b64Val c2 / 16] := by
  simp [Crypto.b64Decode]

theorem b64Decode_pad1 (c1 c2 c3 : Char) (h : c3 ≠ '=') :
    Crypto.b64Decode [c1, c2, c3, '=']
      = [Crypto.b64Val c1 * 4 + Crypto.b64Val c2 / 16,
         Crypto.b64Val c2 % 16 * 16 + Crypto.b64Val c3 / 4] := by
  simp [Crypto.b64Decode, h]

theorem b64Decode_full (c1 c2 c3 c4 : Char) (h3 : c3 ≠ '=') (h4 : c4 ≠ '=')
    (rest : List Char) :
    Crypto.b64Decode (c1 :: c2 :: c3 :: c4 :: rest)
      = (Crypto.b64Val c1 * 4 + Crypto.b64Val c2 / 16)
        :: (Crypto.b64Val c2 % 16 * 16 + Crypto.b64Val c3 / 4)
        :: (Crypto.b64Val c3 % 4 * 64 + Crypto.b64Val c4)
        :: Crypto.b64Decode rest := by
  simp [Crypto.b64Decode, h3, h4]

theorem b64Decode_b64Encode :
    ∀ (k : Nat) (bs : List Nat), bs.length ≤ k → (∀ b ∈ bs, b < 256) →
      Crypto.b64Decode (Crypto.b64Encode bs) = bs := by
  intro k
  induction k with
  | zero =>
      intro bs h _
      have : bs = [] := List.length_eq_zero.mp (Nat.le_zero.mp h)
      subst this
      rfl
  | succ n ih =>
      intro bs h hb
      match bs with
      | [] => rfl
      | [a] =>
          have ha := hb a (by simp)
          show Crypto.b64Decode [Crypto.b64Char (a / 4), Crypto.b64Char (a % 4 * 16),
            '=', '='] = [a]
          rw [b64Decode_pad2]
          rw [b64Val_b64Char _ (by omega), b64Val_b64Char _ (by omega)]
          refine List.cons_eq_cons.mpr ⟨by omega, rfl⟩
      | [a, b] =>
          have ha := hb a (by simp)
          have hbb := hb b (by simp)
          show Crypto.b64Decode [Crypto.b64Char (a / 4),
            Crypto.b64Char (a % 4 * 16 + b / 16), Crypto.b64Char (b % 16 * 4), '=']
            = [a, b]
          rw [b64Decode_pad1 _ _ _ (b64Char_ne _ (by omega))]
          rw [b64Val_b64Char _ (by omega), b64Val_b64Char _ (by omega),
            b64Val_b64Char _ (by omega)]
          refine List.cons_eq_cons.mpr ⟨by omega, ?_⟩
          refine List.cons_eq_cons.mpr ⟨by omega, rfl⟩
      | a :: b :: cc :: rest =>
          have ha := hb a (by simp)
          have hbb := hb b (by simp)
          have hcc := hb cc (by simp)
          have hrest : ∀ x ∈ rest, x < 256 := fun x hx => hb x (by simp [hx])
          have hlen : rest.length ≤ n := by
            simp only [List.length_cons] at h
            omega
          show Crypto.b64Decode (Crypto.b64Char (a / 4)
              :: Crypto.b64Char (a % 4 * 16 + b / 16)
              :: Crypto.b64Char (b % 16 * 4 + cc / 64)
              :: Crypto.b64Char (cc % 64) :: Crypto.b64Encode rest)
            = a :: b :: cc :: rest
          rw [b64Decode_full _ _ _ _ (b64Char_ne _ (by omega)) (b64Char_ne _ (by omega))]
          rw [b64Val_b64Char _ (by omega), b64Val_b64Char _ (by omega),
            b64Val_b64Char _ (by omega), b64Val_b64Char _ (by omega)]
          rw [ih rest hlen hrest]
          refine List.cons_eq_cons.mpr ⟨by omega, ?_⟩
          refine List.cons_eq_cons.mpr ⟨by omega, ?_⟩
          refine List.cons_eq_cons.mpr ⟨by omega, rfl⟩

/-- C10: for one `AGUIProtocolEncryption` instance — a fixed key, whose
AES block-encryption function `E` is the external crypto-library
collaborator, assumed only to produce 16-byte blocks of bytes — decryption
is a left inverse of encryption: base64-decoding and CFB-decrypting (with
the instance's fixed IV) the output of `encrypt` recovers every byte
string exactly; in particular any `message`/`response` payload encrypted
by `send_event` is recovered by the same session's `decrypt`. -/
theorem C10_decrypt_left_inverse :
    ∀ (E : List Nat → List Nat), Crypto.GoodBlockCipher E →
      ∀ (data : List Nat), (∀ b ∈ data, b < 256) →
        Crypto.aguiDecrypt E (Crypto.aguiEncrypt E data) = data := by
  intro E hE data hdata
  simp only [Crypto.aguiEncrypt, Crypto.aguiDecrypt]
  have hbytes := cfbEncF_bytes_lt E hE data.length data Crypto.ivBytes hdata
  rw [b64Decode_b64Encode (Crypto.cfbEncF data.length E Crypto.ivBytes data).length _
    (le_refl _) hbytes]
  rw [cfbEncF_length E hE data.length data Crypto.ivBytes (le_refl _)]
  exact cfbDecF_cfbEncF E hE data.length data data.length Crypto.ivBytes
    (le_refl _) (le_refl _)

/-- Witness for C10 at a concrete block cipher and the UTF-8 bytes of
"hello". -/
theorem C10_decrypt_left_inverse_witness :
    Crypto.aguiDecrypt fxCipher (Crypto.aguiEncrypt fxCipher [104, 101, 108, 108, 111])
      = [104, 101, 108, 108, 111] := by
  have hG : Crypto.GoodBlockCipher fxCipher := by
    intro x
    show ((List.range 16).map (fun i => i * 7 + 3)).length = 16 ∧
        ∀ b ∈ (List.range 16).map (fun i => i * 7 + 3), b < 256
    decide
  exact C10_decrypt_left_inverse fxCipher hG [104, 101, 108, 108, 111] (by decide)
